import Mathlib

/-!
# Verification of the 1-safe Petri net explicit reachability explorer

Shallow embedding of `src/parser.py`: the net model (`Place`, `Transition`,
`PetriNet`), the marking codec (`sorted_place_ids`, `place_id_to_index`),
the firing semantics (`get_enabled_transitions`, `fire_transition`), the
breadth-first reachability explorer (`compute_explicit_reachability`), and
the structural construction of a net from place/transition/arc data
(`build_net`, the non-XML part of `parse_pnml`).

Python dictionaries are modelled as lists in insertion order with the
dictionary update semantics made explicit; markings (Python tuples of
0/1 ints) are modelled as `List Nat`; the visited set is a `Finset`.
The unbounded `while queue:` loop is modelled by a fuel-indexed function
`bfs_aux` returning `none` only if fuel runs out; we prove that the fuel
bound `explorationFuel` always suffices.
-/

/-- `class Place`: identifier and initial marking (a Python int, any value
the PNML text parses to). -/
structure Place where
  id : String
  initial_marking : Int
deriving DecidableEq, Repr

/-- `class Transition`: identifier plus the input and output place lists,
in the order the arcs appended them. -/
structure Transition where
  id : String
  inputs : List Place
  outputs : List Place
deriving DecidableEq, Repr

/-- `class PetriNet` after parsing: the places dictionary and transitions
dictionary, each modelled as its list of values in insertion order
(identifiers are unique for nets built by `build_net`). -/
structure PetriNet where
  places : List Place
  transitions : List Transition
deriving DecidableEq, Repr

/-- A marking tuple: one entry per place, in `sorted_place_ids` order. -/
abbrev Marking := List Nat

/-- Lexicographic comparison of character lists by code point — the order
Python's `sorted()` uses on the identifier strings. -/
def charListLe : List Char → List Char → Bool
  | [], _ => true
  | _ :: _, [] => false
  | a :: as, b :: bs =>
    if a.toNat < b.toNat then true
    else if b.toNat < a.toNat then false
    else charListLe as bs

/-- The string order used by `sorted(self.places.keys())`. -/
def strLe (s t : String) : Prop := charListLe s.data t.data = true

instance : DecidableRel strLe := fun s t => instDecidableEqBool (charListLe s.data t.data) true

theorem charListLe_refl : ∀ l : List Char, charListLe l l = true
  | [] => rfl
  | a :: as => by simp [charListLe, charListLe_refl as]

theorem charListLe_total : ∀ x y : List Char, charListLe x y = true ∨ charListLe y x = true
  | [], _ => Or.inl rfl
  | _ :: _, [] => Or.inr rfl
  | a :: as, b :: bs => by
    rcases Nat.lt_trichotomy a.toNat b.toNat with h | h | h
    · left; simp [charListLe, h]
    · have := charListLe_total as bs
      rcases this with h' | h'
      · left; simp [charListLe, h, h']
      · right; simp [charListLe, h.symm, h']
    · right; simp [charListLe, h]

theorem charListLe_antisymm : ∀ x y : List Char,
    charListLe x y = true → charListLe y x = true → x = y
  | [], [], _, _ => rfl
  | [], _ :: _, _, h => by simp [charListLe] at h
  | _ :: _, [], h, _ => by simp [charListLe] at h
  | a :: as, b :: bs, h₁, h₂ => by
    rcases Nat.lt_trichotomy a.toNat b.toNat with h | h | h
    · simp [charListLe, h, Nat.not_lt_of_lt h] at h₂
    · have hab : a = b := Char.ext_iff.mpr (UInt32.ext_iff.mpr h)
      subst hab
      simp only [charListLe, Nat.lt_irrefl, if_false] at h₁ h₂
      rw [charListLe_antisymm as bs h₁ h₂]
    · simp [charListLe, h, Nat.not_lt_of_lt h] at h₁

theorem charListLe_trans : ∀ x y z : List Char,
    charListLe x y = true → charListLe y z = true → charListLe x z = true
  | [], _, _, _, _ => rfl
  | _ :: _, [], _, h, _ => by simp [charListLe] at h
  | _ :: _, _ :: _, [], _, h => by simp [charListLe] at h
  | a :: as, b :: bs, c :: cs, h₁, h₂ => by
    simp only [charListLe] at h₁ h₂ ⊢
    rcases Nat.lt_trichotomy a.toNat b.toNat with hab | hab | hab <;>
      rcases Nat.lt_trichotomy b.toNat c.toNat with hbc | hbc | hbc
    · rw [if_pos (Nat.lt_trans hab hbc)]
    · rw [if_pos (hbc ▸ hab)]
    · rw [if_neg (Nat.lt_asymm hbc), if_pos hbc] at h₂
      exact absurd h₂ (by simp)
    · rw [if_pos (hab ▸ hbc)]
    · rw [if_neg (hab ▸ hbc ▸ Nat.lt_irrefl _), if_neg (hab ▸ hbc ▸ Nat.lt_irrefl _)]
      rw [if_neg (hab ▸ Nat.lt_irrefl _), if_neg (hab ▸ Nat.lt_irrefl _)] at h₁
      rw [if_neg (hbc ▸ Nat.lt_irrefl _), if_neg (hbc ▸ Nat.lt_irrefl _)] at h₂
      exact charListLe_trans as bs cs h₁ h₂
    · rw [if_neg (Nat.lt_asymm hbc), if_pos hbc] at h₂
      exact absurd h₂ (by simp)
    · rw [if_neg (Nat.lt_asymm hab), if_pos hab] at h₁
      exact absurd h₁ (by simp)
    · rw [if_neg (Nat.lt_asymm hab), if_pos hab] at h₁
      exact absurd h₁ (by simp)
    · rw [if_neg (Nat.lt_asymm hab), if_pos hab] at h₁
      exact absurd h₁ (by simp)

instance : IsTotal String strLe := ⟨fun s t => charListLe_total s.data t.data⟩

instance : IsTrans String strLe := ⟨fun s t u => charListLe_trans s.data t.data u.data⟩

instance : IsAntisymm String strLe :=
  ⟨fun s t h₁ h₂ => String.ext (charListLe_antisymm s.data t.data h₁ h₂)⟩

instance : IsRefl String strLe := ⟨fun s => charListLe_refl s.data⟩

/-- `finalize_structure`, first field: `sorted(self.places.keys())`. -/
def PetriNet.sorted_place_ids (net : PetriNet) : List String :=
  List.insertionSort strLe (net.places.map Place.id)

/-- `finalize_structure`, second field: `{pid: i for i, pid in
enumerate(self.sorted_place_ids)}`, i.e. each place id maps to its
position in the sorted list. -/
def PetriNet.place_id_to_index (net : PetriNet) (pid : String) : Nat :=
  net.sorted_place_ids.indexOf pid

/-- `get_initial_marking_tuple`: start from all zeros, then for every place
whose `initial_marking == 1` set its entry to 1. -/
def PetriNet.get_initial_marking_tuple (net : PetriNet) : Marking :=
  net.places.foldl
    (fun m p => if p.initial_marking = 1 then m.set (net.place_id_to_index p.id) 1 else m)
    (List.replicate net.sorted_place_ids.length 0)

/-- The enabledness test inside `get_enabled_transitions`: a transition is
disabled exactly when some input place reads 0 in the marking. -/
def PetriNet.is_enabled (net : PetriNet) (marking : Marking) (t : Transition) : Bool :=
  t.inputs.all fun p => !(marking.getD (net.place_id_to_index p.id) 0 == 0)

/-- `get_enabled_transitions`: the transitions (in dictionary order) whose
every input place holds a token. -/
def PetriNet.get_enabled_transitions (net : PetriNet) (marking : Marking) : List Transition :=
  net.transitions.filter (net.is_enabled marking)

/-- `fire_transition`: copy the marking, set every input place entry to 0,
then set every output place entry to 1. -/
def PetriNet.fire_transition (net : PetriNet) (marking : Marking) (t : Transition) : Marking :=
  let afterInputs := t.inputs.foldl (fun m p => m.set (net.place_id_to_index p.id) 0) marking
  t.outputs.foldl (fun m p => m.set (net.place_id_to_index p.id) 1) afterInputs

/-- The inner `for trans in enabled_transitions:` loop of
`compute_explicit_reachability`: fire each transition from `current`; a
successor not yet visited is added to the visited set and appended to the
queue. -/
def processTransitions (net : PetriNet) (current : Marking) :
    List Transition → Finset Marking → List Marking → Finset Marking × List Marking
  | [], visited, queue => (visited, queue)
  | t :: ts, visited, queue =>
    let next := net.fire_transition current t
    if next ∈ visited then processTransitions net current ts visited queue
    else processTransitions net current ts (insert next visited) (queue ++ [next])

/-- The `while queue:` loop of `compute_explicit_reachability`, indexed by
fuel: pop the front marking, process its enabled transitions, continue.
Returns `none` only when the fuel runs out before the queue empties. -/
def bfs_aux (net : PetriNet) : Nat → Finset Marking → List Marking → Option (Finset Marking)
  | _, visited, [] => some visited
  | 0, _, _ :: _ => none
  | fuel + 1, visited, current :: rest =>
    let vq := processTransitions net current (net.get_enabled_transitions current) visited rest
    bfs_aux net fuel vq.1 vq.2

/-- Fuel that always suffices for the BFS loop to drain its queue
(proved in `bfs_aux_run_isSome`). -/
def explorationFuel (net : PetriNet) : Nat :=
  2 * 2 ^ net.places.length + 2

/-- `compute_explicit_reachability`: BFS from the initial marking; the
visited set starts as `{initial}` and the queue as `[initial]`. -/
def compute_explicit_reachability (net : PetriNet) : Finset Marking :=
  let start := net.get_initial_marking_tuple
  (bfs_aux net (explorationFuel net) {start} [start]).getD ∅

/-! ## Helper lemmas about `List.set` and `List.getD` -/

theorem getD_set_ne {l : List ℕ} {i j : ℕ} (h : j ≠ i) (v d : ℕ) :
    (l.set j v).getD i d = l.getD i d := by
  simp [List.getD_eq_getElem?_getD, List.getElem?_set_ne h]

theorem getD_set_self {l : List ℕ} {i : ℕ} (h : i < l.length) (v d : ℕ) :
    (l.set i v).getD i d = v := by
  simp [List.getD_eq_getElem?_getD, List.getElem?_set_self h]

theorem mem_set_imp {l : List ℕ} {i x v : ℕ} (h : x ∈ l.set i v) : x = v ∨ x ∈ l := by
  induction l generalizing i with
  | nil => simp at h
  | cons a as ih =>
    cases i with
    | zero =>
      simp only [List.set] at h
      rcases List.mem_cons.mp h with h | h
      · exact Or.inl h
      · exact Or.inr (List.mem_cons_of_mem _ h)
    | succ n =>
      simp only [List.set] at h
      rcases List.mem_cons.mp h with h | h
      · exact Or.inr (h ▸ List.mem_cons_self _ _)
      · rcases ih h with h | h
        · exact Or.inl h
        · exact Or.inr (List.mem_cons_of_mem _ h)

/-! ## Lemmas about the folds inside `fire_transition` and
`get_initial_marking_tuple` -/

/-- Folding `List.set` writes preserves the length of the marking. -/
theorem length_foldl_set {β : Type} (f : β → ℕ) (v : ℕ) :
    ∀ (ps : List β) (l : List ℕ),
      (ps.foldl (fun m p => m.set (f p) v) l).length = l.length
  | [], _ => rfl
  | p :: ps, l => by
    rw [List.foldl_cons, length_foldl_set f v ps, List.length_set]

/-- Folding `List.set` writes of a value `v`: every entry of the result is
`v` or an entry of the start marking. -/
theorem mem_foldl_set {β : Type} (f : β → ℕ) (v : ℕ) :
    ∀ (ps : List β) (l : List ℕ) (x : ℕ),
      x ∈ ps.foldl (fun m p => m.set (f p) v) l → x = v ∨ x ∈ l
  | [], _, _, h => Or.inr h
  | p :: ps, l, x, h => by
    rw [List.foldl_cons] at h
    rcases mem_foldl_set f v ps _ x h with h | h
    · exact Or.inl h
    · exact mem_set_imp h

/-- Pointwise description of a fold of `List.set` writes of one value `v`:
position `i` reads `v` if some element wrote it, the old entry otherwise. -/
theorem getD_foldl_set {β : Type} [DecidableEq β] (f : β → ℕ) (v : ℕ) :
    ∀ (ps : List β) (l : List ℕ) (i : ℕ), i < l.length →
      (ps.foldl (fun m p => m.set (f p) v) l).getD i 0 =
        if i ∈ ps.map f then v else l.getD i 0
  | [], _, _, _ => by simp
  | p :: ps, l, i, hi => by
    rw [List.foldl_cons]
    rw [getD_foldl_set f v ps _ i (by rw [List.length_set]; exact hi)]
    by_cases hmem : i ∈ ps.map f
    · simp [hmem]
    · by_cases hp : f p = i
      · rw [if_neg hmem]
        have hL : (l.set (f p) v).getD i 0 = v := by rw [hp]; exact getD_set_self hi v 0
        rw [hL, if_pos (by simp [hp.symm])]
      · rw [if_neg hmem, getD_set_ne hp]
        have hni : i ∉ (p :: ps).map f := by
          simp only [List.map_cons, List.mem_cons]
          rintro (h | h)
          · exact hp h.symm
          · exact hmem h
        rw [if_neg hni]

/-- A fold of conditional `List.set` writes preserves length. -/
theorem length_foldl_cond_set {β : Type} (c : β → Prop) [DecidablePred c] (f : β → ℕ) (v : ℕ) :
    ∀ (ps : List β) (l : List ℕ),
      (ps.foldl (fun m p => if c p then m.set (f p) v else m) l).length = l.length
  | [], _ => rfl
  | p :: ps, l => by
    rw [List.foldl_cons, length_foldl_cond_set c f v ps]
    split <;> simp [List.length_set]

/-- Entries after a fold of conditional `List.set` writes of `v`. -/
theorem mem_foldl_cond_set {β : Type} (c : β → Prop) [DecidablePred c] (f : β → ℕ) (v : ℕ) :
    ∀ (ps : List β) (l : List ℕ) (x : ℕ),
      x ∈ ps.foldl (fun m p => if c p then m.set (f p) v else m) l → x = v ∨ x ∈ l
  | [], _, _, h => Or.inr h
  | p :: ps, l, x, h => by
    rw [List.foldl_cons] at h
    rcases mem_foldl_cond_set c f v ps _ x h with h | h
    · exact Or.inl h
    · split at h
      · exact mem_set_imp h
      · exact Or.inr h

/-- A position written by no element of the fold keeps its old entry. -/
theorem getD_foldl_cond_set_of_not_written {β : Type} (c : β → Prop) [DecidablePred c]
    (f : β → ℕ) (v : ℕ) :
    ∀ (ps : List β) (l : List ℕ) (i : ℕ), (∀ p ∈ ps, c p → f p ≠ i) →
      (ps.foldl (fun m p => if c p then m.set (f p) v else m) l).getD i 0 = l.getD i 0
  | [], _, _, _ => rfl
  | p :: ps, l, i, hw => by
    rw [List.foldl_cons,
      getD_foldl_cond_set_of_not_written c f v ps _ i fun q hq => hw q (List.mem_cons_of_mem _ hq)]
    by_cases hc : c p
    · simp only [hc, if_true]
      exact getD_set_ne (hw p (List.mem_cons_self _ _) hc) v 0
    · simp [hc]

/-! ## The finite space of boolean markings -/

/-- All 0/1 vectors of length `n`: the space bounding the visited set. -/
def boolMarkings : ℕ → Finset Marking
  | 0 => {[]}
  | n + 1 => (boolMarkings n).image (List.cons 0) ∪ (boolMarkings n).image (List.cons 1)

theorem mem_boolMarkings :
    ∀ (n : ℕ) (m : Marking), m ∈ boolMarkings n ↔ m.length = n ∧ ∀ x ∈ m, x = 0 ∨ x = 1
  | 0, m => by
    constructor
    · intro h
      simp only [boolMarkings, Finset.mem_singleton] at h
      subst h; simp
    · rintro ⟨hlen, _⟩
      rw [List.length_eq_zero] at hlen
      subst hlen
      simp [boolMarkings]
  | n + 1, m => by
    simp only [boolMarkings, Finset.mem_union, Finset.mem_image]
    constructor
    · rintro (⟨m', hm', rfl⟩ | ⟨m', hm', rfl⟩) <;>
        rcases (mem_boolMarkings n m').mp hm' with ⟨hlen, hmem⟩
      · refine ⟨by simp [hlen], ?_⟩
        intro x hx
        rcases List.mem_cons.mp hx with h | h
        · exact Or.inl h
        · exact hmem x h
      · refine ⟨by simp [hlen], ?_⟩
        intro x hx
        rcases List.mem_cons.mp hx with h | h
        · exact Or.inr h
        · exact hmem x h
    · rintro ⟨hlen, hmem⟩
      cases m with
      | nil => simp at hlen
      | cons a as =>
        have has : as ∈ boolMarkings n :=
          (mem_boolMarkings n as).mpr
            ⟨by simpa using hlen, fun x hx => hmem x (List.mem_cons_of_mem _ hx)⟩
        rcases hmem a (List.mem_cons_self _ _) with h | h
        · exact Or.inl ⟨as, has, by rw [h]⟩
        · exact Or.inr ⟨as, has, by rw [h]⟩

theorem card_boolMarkings : ∀ n : ℕ, (boolMarkings n).card ≤ 2 ^ n
  | 0 => by simp [boolMarkings]
  | n + 1 => by
    calc (boolMarkings (n + 1)).card
        ≤ ((boolMarkings n).image (List.cons 0)).card +
            ((boolMarkings n).image (List.cons 1)).card := Finset.card_union_le _ _
      _ ≤ (boolMarkings n).card + (boolMarkings n).card :=
          Nat.add_le_add (Finset.card_image_le) (Finset.card_image_le)
      _ ≤ 2 ^ n + 2 ^ n := Nat.add_le_add (card_boolMarkings n) (card_boolMarkings n)
      _ = 2 ^ (n + 1) := by ring

/-! ## Invariants of the produced markings -/

theorem length_sorted_place_ids (net : PetriNet) :
    net.sorted_place_ids.length = net.places.length := by
  rw [PetriNet.sorted_place_ids, (List.perm_insertionSort strLe _).length_eq,
    List.length_map]

theorem length_initial (net : PetriNet) :
    net.get_initial_marking_tuple.length = net.places.length := by
  rw [PetriNet.get_initial_marking_tuple, length_foldl_cond_set, List.length_replicate,
    length_sorted_place_ids]

theorem mem_initial (net : PetriNet) :
    ∀ x ∈ net.get_initial_marking_tuple, x = 0 ∨ x = 1 := by
  intro x hx
  rcases mem_foldl_cond_set _ _ _ _ _ x hx with h | h
  · exact Or.inr h
  · exact Or.inl (List.eq_of_mem_replicate h)

theorem initial_mem_boolMarkings (net : PetriNet) :
    net.get_initial_marking_tuple ∈ boolMarkings net.places.length :=
  (mem_boolMarkings _ _).mpr ⟨length_initial net, mem_initial net⟩

theorem length_fire (net : PetriNet) (m : Marking) (t : Transition) :
    (net.fire_transition m t).length = m.length := by
  rw [PetriNet.fire_transition, length_foldl_set, length_foldl_set]

theorem mem_fire (net : PetriNet) (m : Marking) (t : Transition)
    (hm : ∀ x ∈ m, x = 0 ∨ x = 1) :
    ∀ x ∈ net.fire_transition m t, x = 0 ∨ x = 1 := by
  intro x hx
  rw [PetriNet.fire_transition] at hx
  rcases mem_foldl_set _ _ _ _ x hx with h | h
  · exact Or.inr h
  · rcases mem_foldl_set _ _ _ _ x h with h' | h'
    · exact Or.inl h'
    · exact hm x h'

theorem fire_mem_boolMarkings (net : PetriNet) (m : Marking) (t : Transition)
    (hm : m ∈ boolMarkings net.places.length) :
    net.fire_transition m t ∈ boolMarkings net.places.length := by
  rcases (mem_boolMarkings _ _).mp hm with ⟨hlen, hmem⟩
  exact (mem_boolMarkings _ _).mpr ⟨by rw [length_fire, hlen], mem_fire net m t hmem⟩

/-! ## Lemmas about the inner transition-processing loop -/

/-- The visited set only grows. -/
theorem pt_visited_subset (net : PetriNet) (current : Marking) :
    ∀ (ts : List Transition) (visited : Finset Marking) (queue : List Marking),
      visited ⊆ (processTransitions net current ts visited queue).1
  | [], _, _ => Finset.Subset.refl _
  | t :: ts, visited, queue => by
    simp only [processTransitions]
    by_cases h : net.fire_transition current t ∈ visited
    · rw [if_pos h]
      exact pt_visited_subset net current ts visited queue
    · rw [if_neg h]
      exact (Finset.subset_insert _ _).trans (pt_visited_subset net current ts _ _)

/-- Existing queue entries survive the inner loop. -/
theorem pt_queue_mono (net : PetriNet) (current : Marking) :
    ∀ (ts : List Transition) (visited : Finset Marking) (queue : List Marking),
      ∀ m ∈ queue, m ∈ (processTransitions net current ts visited queue).2
  | [], _, _, _, hm => hm
  | t :: ts, visited, queue, m, hm => by
    simp only [processTransitions]
    by_cases h : net.fire_transition current t ∈ visited
    · rw [if_pos h]
      exact pt_queue_mono net current ts visited queue m hm
    · rw [if_neg h]
      exact pt_queue_mono net current ts _ _ m (List.mem_append_left _ hm)

/-- Everything the inner loop appends to the queue was unvisited when the
loop started, and is in the final visited set: a marking already visited
is never inserted into the frontier. -/
theorem pt_queue_fresh (net : PetriNet) (current : Marking) :
    ∀ (ts : List Transition) (visited : Finset Marking) (queue : List Marking),
      ∀ m ∈ (processTransitions net current ts visited queue).2,
        m ∈ queue ∨ (m ∉ visited ∧ m ∈ (processTransitions net current ts visited queue).1)
  | [], _, _, _, hm => Or.inl hm
  | t :: ts, visited, queue, m, hm => by
    simp only [processTransitions] at hm ⊢
    by_cases h : net.fire_transition current t ∈ visited
    · rw [if_pos h] at hm ⊢
      exact pt_queue_fresh net current ts visited queue m hm
    · rw [if_neg h] at hm ⊢
      rcases pt_queue_fresh net current ts _ _ m hm with hq | ⟨hnv, hv⟩
      · rcases List.mem_append.mp hq with hq | hq
        · exact Or.inl hq
        · have hmn : m = net.fire_transition current t := List.mem_singleton.mp hq
          refine Or.inr ⟨hmn ▸ h, ?_⟩
          exact pt_visited_subset net current ts _ _ (hmn ▸ Finset.mem_insert_self _ _)
      · exact Or.inr ⟨fun hc => hnv (Finset.mem_insert_of_mem hc), hv⟩

/-- Every queue append is matched by a visited-set insert. -/
theorem pt_card (net : PetriNet) (current : Marking) :
    ∀ (ts : List Transition) (visited : Finset Marking) (queue : List Marking),
      (processTransitions net current ts visited queue).1.card + queue.length =
        visited.card + (processTransitions net current ts visited queue).2.length
  | [], _, _ => rfl
  | t :: ts, visited, queue => by
    simp only [processTransitions]
    by_cases h : net.fire_transition current t ∈ visited
    · rw [if_pos h]
      exact pt_card net current ts visited queue
    · rw [if_neg h]
      have ih := pt_card net current ts (insert (net.fire_transition current t) visited)
        (queue ++ [net.fire_transition current t])
      rw [Finset.card_insert_of_not_mem h, List.length_append, List.length_singleton] at ih
      omega

/-- Every transition handed to the inner loop has its successor in the
final visited set. -/
theorem pt_fires_mem (net : PetriNet) (current : Marking) :
    ∀ (ts : List Transition) (visited : Finset Marking) (queue : List Marking),
      ∀ t ∈ ts, net.fire_transition current t ∈ (processTransitions net current ts visited queue).1
  | t' :: ts, visited, queue, t, ht => by
    simp only [processTransitions]
    rcases List.mem_cons.mp ht with rfl | ht'
    · by_cases h : net.fire_transition current t ∈ visited
      · rw [if_pos h]
        exact pt_visited_subset net current ts visited queue h
      · rw [if_neg h]
        exact pt_visited_subset net current ts _ _ (Finset.mem_insert_self _ _)
    · by_cases h : net.fire_transition current t' ∈ visited
      · rw [if_pos h]
        exact pt_fires_mem net current ts visited queue t ht'
      · rw [if_neg h]
        exact pt_fires_mem net current ts _ _ t ht'

/-- Everything in the final visited set was already visited or is the
successor of `current` under some processed transition. -/
theorem pt_visited_src (net : PetriNet) (current : Marking) :
    ∀ (ts : List Transition) (visited : Finset Marking) (queue : List Marking),
      ∀ m ∈ (processTransitions net current ts visited queue).1,
        m ∈ visited ∨ ∃ t ∈ ts, m = net.fire_transition current t
  | [], _, _, _, hm => Or.inl hm
  | t :: ts, visited, queue, m, hm => by
    simp only [processTransitions] at hm
    by_cases h : net.fire_transition current t ∈ visited
    · rw [if_pos h] at hm
      rcases pt_visited_src net current ts visited queue m hm with hv | ⟨t', ht', he⟩
      · exact Or.inl hv
      · exact Or.inr ⟨t', List.mem_cons_of_mem _ ht', he⟩
    · rw [if_neg h] at hm
      rcases pt_visited_src net current ts _ _ m hm with hv | ⟨t', ht', he⟩
      · rcases Finset.mem_insert.mp hv with he | hv
        · exact Or.inr ⟨t, List.mem_cons_self _ _, he⟩
        · exact Or.inl hv
      · exact Or.inr ⟨t', List.mem_cons_of_mem _ ht', he⟩

/-- Everything in the final queue was already queued or is the successor
of `current` under some processed transition. -/
theorem pt_queue_src (net : PetriNet) (current : Marking) :
    ∀ (ts : List Transition) (visited : Finset Marking) (queue : List Marking),
      ∀ m ∈ (processTransitions net current ts visited queue).2,
        m ∈ queue ∨ ∃ t ∈ ts, m = net.fire_transition current t
  | [], _, _, _, hm => Or.inl hm
  | t :: ts, visited, queue, m, hm => by
    simp only [processTransitions] at hm
    by_cases h : net.fire_transition current t ∈ visited
    · rw [if_pos h] at hm
      rcases pt_queue_src net current ts visited queue m hm with hv | ⟨t', ht', he⟩
      · exact Or.inl hv
      · exact Or.inr ⟨t', List.mem_cons_of_mem _ ht', he⟩
    · rw [if_neg h] at hm
      rcases pt_queue_src net current ts _ _ m hm with hv | ⟨t', ht', he⟩
      · rcases List.mem_append.mp hv with hq | hq
        · exact Or.inl hq
        · exact Or.inr ⟨t, List.mem_cons_self _ _, List.mem_singleton.mp hq⟩
      · exact Or.inr ⟨t', List.mem_cons_of_mem _ ht', he⟩

/-- The queue stays inside the visited set. -/
theorem pt_queue_sub_visited (net : PetriNet) (current : Marking) :
    ∀ (ts : List Transition) (visited : Finset Marking) (queue : List Marking),
      (∀ m ∈ queue, m ∈ visited) →
      ∀ m ∈ (processTransitions net current ts visited queue).2,
        m ∈ (processTransitions net current ts visited queue).1
  | [], _, _, hq, _, hm => hq _ hm
  | t :: ts, visited, queue, hq, m, hm => by
    simp only [processTransitions] at hm ⊢
    by_cases h : net.fire_transition current t ∈ visited
    · rw [if_pos h] at hm ⊢
      exact pt_queue_sub_visited net current ts visited queue hq m hm
    · rw [if_neg h] at hm ⊢
      refine pt_queue_sub_visited net current ts _ _ ?_ m hm
      intro x hx
      rcases List.mem_append.mp hx with hx | hx
      · exact Finset.mem_insert_of_mem (hq x hx)
      · exact List.mem_singleton.mp hx ▸ Finset.mem_insert_self _ _

/-- Every newly visited marking is placed on the queue. -/
theorem pt_new_in_queue (net : PetriNet) (current : Marking) :
    ∀ (ts : List Transition) (visited : Finset Marking) (queue : List Marking),
      ∀ m ∈ (processTransitions net current ts visited queue).1,
        m ∈ visited ∨ m ∈ (processTransitions net current ts visited queue).2
  | [], _, _, _, hm => Or.inl hm
  | t :: ts, visited, queue, m, hm => by
    simp only [processTransitions] at hm ⊢
    by_cases h : net.fire_transition current t ∈ visited
    · rw [if_pos h] at hm ⊢
      exact pt_new_in_queue net current ts visited queue m hm
    · rw [if_neg h] at hm ⊢
      rcases pt_new_in_queue net current ts _ _ m hm with hv | hqm
      · rcases Finset.mem_insert.mp hv with rfl | hv
        · exact Or.inr (pt_queue_mono net current ts _ _ _
            (List.mem_append_right _ (List.mem_singleton_self _)))
        · exact Or.inl hv
      · exact Or.inr hqm

/-! ## The firing step relation and reachability -/

/-- One firing step: some transition of the net is enabled at `m` and
fires to `m'`. -/
def StepRel (net : PetriNet) (m m' : Marking) : Prop :=
  ∃ t ∈ net.transitions, net.is_enabled m t = true ∧ net.fire_transition m t = m'

/-- `m` is reachable from the initial marking by a finite sequence of
enabled-transition firings. -/
def Reaches (net : PetriNet) (m : Marking) : Prop :=
  Relation.ReflTransGen (StepRel net) net.get_initial_marking_tuple m

theorem mem_enabled_iff (net : PetriNet) (m : Marking) (t : Transition) :
    t ∈ net.get_enabled_transitions m ↔ t ∈ net.transitions ∧ net.is_enabled m t = true := by
  rw [PetriNet.get_enabled_transitions, List.mem_filter]

theorem step_of_mem_enabled (net : PetriNet) (m : Marking) (t : Transition)
    (ht : t ∈ net.get_enabled_transitions m) : StepRel net m (net.fire_transition m t) := by
  rcases (mem_enabled_iff net m t).mp ht with ⟨h₁, h₂⟩
  exact ⟨t, h₁, h₂, rfl⟩

/-! ## Lemmas about the BFS loop -/

theorem bfs_aux_mono (net : PetriNet) :
    ∀ (fuel : ℕ) (visited : Finset Marking) (queue : List Marking) (r : Finset Marking),
      bfs_aux net fuel visited queue = some r → visited ⊆ r
  | fuel, visited, [], r, h => by
    rw [bfs_aux] at h
    exact (Option.some.inj h) ▸ Finset.Subset.refl _
  | 0, visited, m :: rest, r, h => by rw [bfs_aux] at h; exact absurd h (by simp)
  | fuel + 1, visited, current :: rest, r, h => by
    simp only [bfs_aux] at h
    exact (pt_visited_subset net current _ visited rest).trans (bfs_aux_mono net fuel _ _ r h)

/-- Soundness: if everything visited or queued is reachable, so is
everything in the final set. -/
theorem bfs_aux_sound (net : PetriNet) :
    ∀ (fuel : ℕ) (visited : Finset Marking) (queue : List Marking) (r : Finset Marking),
      bfs_aux net fuel visited queue = some r →
      (∀ m ∈ visited, Reaches net m) → (∀ m ∈ queue, Reaches net m) →
      ∀ m ∈ r, Reaches net m
  | fuel, visited, [], r, h, hv, _ => by
    rw [bfs_aux] at h
    exact (Option.some.inj h) ▸ hv
  | 0, visited, m :: rest, r, h, _, _ => by rw [bfs_aux] at h; exact absurd h (by simp)
  | fuel + 1, visited, current :: rest, r, h, hv, hq => by
    simp only [bfs_aux] at h
    have hcur : Reaches net current := hq current (List.mem_cons_self _ _)
    refine bfs_aux_sound net fuel _ _ r h ?_ ?_
    · intro m hm
      rcases pt_visited_src net current _ visited rest m hm with h' | ⟨t, ht, rfl⟩
      · exact hv m h'
      · exact hcur.tail (step_of_mem_enabled net current t ht)
    · intro m hm
      rcases pt_queue_src net current _ visited rest m hm with h' | ⟨t, ht, rfl⟩
      · exact hq m (List.mem_cons_of_mem _ h')
      · exact hcur.tail (step_of_mem_enabled net current t ht)

/-- Completeness: at termination the visited set is closed under firing
any enabled transition. -/
theorem bfs_aux_closed (net : PetriNet) :
    ∀ (fuel : ℕ) (visited : Finset Marking) (queue : List Marking) (r : Finset Marking),
      bfs_aux net fuel visited queue = some r →
      (∀ m ∈ queue, m ∈ visited) →
      (∀ m ∈ visited, m ∈ queue ∨
        ∀ t ∈ net.get_enabled_transitions m, net.fire_transition m t ∈ visited) →
      ∀ m ∈ r, ∀ t ∈ net.get_enabled_transitions m, net.fire_transition m t ∈ r
  | fuel, visited, [], r, h, _, hcl => by
    rw [bfs_aux] at h
    cases Option.some.inj h
    intro m hm t ht
    rcases hcl m hm with hq | hc
    · exact absurd hq (List.not_mem_nil m)
    · exact hc t ht
  | 0, visited, m :: rest, r, h, _, _ => by rw [bfs_aux] at h; exact absurd h (by simp)
  | fuel + 1, visited, current :: rest, r, h, hq, hcl => by
    simp only [bfs_aux] at h
    refine bfs_aux_closed net fuel _ _ r h ?_ ?_
    · exact pt_queue_sub_visited net current _ visited rest
        (fun m hm => hq m (List.mem_cons_of_mem _ hm))
    · intro m hm
      rcases pt_new_in_queue net current _ visited rest m hm with hv | hqm
      · rcases hcl m hv with hcq | hc
        · rcases List.mem_cons.mp hcq with rfl | hrest
          · exact Or.inr fun t ht => pt_fires_mem net m _ visited rest t ht
          · exact Or.inl (pt_queue_mono net current _ visited rest m hrest)
        · exact Or.inr fun t ht =>
            pt_visited_subset net current _ visited rest (hc t ht)
      · exact Or.inl hqm

/-- Termination: enough fuel always drains the queue. -/
theorem bfs_aux_isSome (net : PetriNet) :
    ∀ (fuel : ℕ) (visited : Finset Marking) (queue : List Marking),
      ↑visited ⊆ (boolMarkings net.places.length : Finset Marking).toSet →
      (∀ m ∈ queue, m ∈ boolMarkings net.places.length) →
      2 * ((boolMarkings net.places.length).card - visited.card) + queue.length < fuel →
      (bfs_aux net fuel visited queue).isSome
  | 0, visited, queue, _, _, hfuel => absurd hfuel (by omega)
  | fuel + 1, visited, [], _, _, _ => by rw [bfs_aux]; rfl
  | fuel + 1, visited, current :: rest, hv, hq, hfuel => by
    simp only [bfs_aux]
    have hcur : current ∈ boolMarkings net.places.length := hq current (List.mem_cons_self _ _)
    have hv' : ↑(processTransitions net current (net.get_enabled_transitions current)
        visited rest).1 ⊆ (boolMarkings net.places.length : Finset Marking).toSet := by
      intro m hm
      rcases pt_visited_src net current _ visited rest m hm with h' | ⟨t, _, rfl⟩
      · exact hv h'
      · exact fire_mem_boolMarkings net current t hcur
    have hq' : ∀ m ∈ (processTransitions net current (net.get_enabled_transitions current)
        visited rest).2, m ∈ boolMarkings net.places.length := by
      intro m hm
      rcases pt_queue_src net current _ visited rest m hm with h' | ⟨t, _, rfl⟩
      · exact hq m (List.mem_cons_of_mem _ h')
      · exact fire_mem_boolMarkings net current t hcur
    refine bfs_aux_isSome net fuel _ _ hv' hq' ?_
    have hcard := pt_card net current (net.get_enabled_transitions current) visited rest
    have hsub := pt_visited_subset net current (net.get_enabled_transitions current) visited rest
    have h₁ : visited.card ≤ (processTransitions net current
        (net.get_enabled_transitions current) visited rest).1.card :=
      Finset.card_le_card hsub
    have h₂ : (processTransitions net current (net.get_enabled_transitions current)
        visited rest).1.card ≤ (boolMarkings net.places.length).card := by
      apply Finset.card_le_card
      intro m hm
      exact hv' hm
    simp only [List.length_cons] at hfuel
    omega

/-! ## The explorer computes exactly the reachable set -/

theorem bfs_run_isSome (net : PetriNet) :
    (bfs_aux net (explorationFuel net) {net.get_initial_marking_tuple}
      [net.get_initial_marking_tuple]).isSome := by
  apply bfs_aux_isSome
  · intro m hm
    rw [Finset.mem_coe, Finset.mem_singleton] at hm
    exact hm ▸ initial_mem_boolMarkings net
  · intro m hm
    rw [List.mem_singleton] at hm
    exact hm ▸ initial_mem_boolMarkings net
  · have h := card_boolMarkings net.places.length
    simp only [Finset.card_singleton, List.length_singleton, explorationFuel]
    omega

theorem compute_eq_of_run {net : PetriNet} {r : Finset Marking}
    (h : bfs_aux net (explorationFuel net) {net.get_initial_marking_tuple}
      [net.get_initial_marking_tuple] = some r) :
    compute_explicit_reachability net = r := by
  rw [compute_explicit_reachability]
  simp only [h, Option.getD_some]

/-- The heart of claim C1: membership in the computed set is exactly
reachability from the initial marking. -/
theorem reachability_exact (net : PetriNet) (m : Marking) :
    m ∈ compute_explicit_reachability net ↔ Reaches net m := by
  obtain ⟨r, hr⟩ := Option.isSome_iff_exists.mp (bfs_run_isSome net)
  rw [compute_eq_of_run hr]
  have hinit : net.get_initial_marking_tuple ∈ r :=
    bfs_aux_mono net _ _ _ r hr (Finset.mem_singleton_self _)
  constructor
  · intro hm
    refine bfs_aux_sound net _ _ _ r hr ?_ ?_ m hm
    · intro x hx
      rw [Finset.mem_singleton] at hx
      exact hx ▸ Relation.ReflTransGen.refl
    · intro x hx
      rw [List.mem_singleton] at hx
      exact hx ▸ Relation.ReflTransGen.refl
  · intro hm
    have hclosed := bfs_aux_closed net _ _ _ r hr
      (fun x hx => by rw [List.mem_singleton] at hx; exact hx ▸ Finset.mem_singleton_self _)
      (fun x hx => Or.inl (by
        rw [Finset.mem_singleton] at hx; exact hx ▸ List.mem_singleton_self _))
    induction hm with
    | refl => exact hinit
    | tail _ hstep ih =>
      rcases hstep with ⟨t, ht, hen, rfl⟩
      exact hclosed _ ih t ((mem_enabled_iff net _ t).mpr ⟨ht, hen⟩)

theorem initial_mem_compute (net : PetriNet) :
    net.get_initial_marking_tuple ∈ compute_explicit_reachability net :=
  (reachability_exact net _).mpr Relation.ReflTransGen.refl

theorem compute_card_le (net : PetriNet) :
    (compute_explicit_reachability net).card ≤ 2 ^ net.places.length := by
  refine le_trans (Finset.card_le_card ?_) (card_boolMarkings net.places.length)
  intro m hm
  rw [reachability_exact net m] at hm
  induction hm with
  | refl => exact initial_mem_boolMarkings net
  | tail _ hstep ih =>
    rcases hstep with ⟨t, _, _, rfl⟩
    exact fire_mem_boolMarkings net _ t ih

/-! ## Depth-first variant: pop the newest frontier element

Identical inner logic, but newly discovered markings are pushed on top of
the frontier, so the next pop takes the newest element (a stack). -/

/-- The inner loop of the depth-first variant: successors are pushed on
top of the stack instead of appended to the back of the queue. -/
def processTransitionsDFS (net : PetriNet) (current : Marking) :
    List Transition → Finset Marking → List Marking → Finset Marking × List Marking
  | [], visited, stack => (visited, stack)
  | t :: ts, visited, stack =>
    let next := net.fire_transition current t
    if next ∈ visited then processTransitionsDFS net current ts visited stack
    else processTransitionsDFS net current ts (insert next visited) (next :: stack)

/-- The depth-first search loop: pops the top (newest) stack element. -/
def dfs_aux (net : PetriNet) : Nat → Finset Marking → List Marking → Option (Finset Marking)
  | _, visited, [] => some visited
  | 0, _, _ :: _ => none
  | fuel + 1, visited, current :: rest =>
    let vq := processTransitionsDFS net current (net.get_enabled_transitions current) visited rest
    dfs_aux net fuel vq.1 vq.2

/-- The reachability explorer with depth-first traversal order. -/
def compute_dfs_reachability (net : PetriNet) : Finset Marking :=
  let start := net.get_initial_marking_tuple
  (dfs_aux net (explorationFuel net) {start} [start]).getD ∅

theorem ptd_visited_subset (net : PetriNet) (current : Marking) :
    ∀ (ts : List Transition) (visited : Finset Marking) (stack : List Marking),
      visited ⊆ (processTransitionsDFS net current ts visited stack).1
  | [], _, _ => Finset.Subset.refl _
  | t :: ts, visited, stack => by
    simp only [processTransitionsDFS]
    by_cases h : net.fire_transition current t ∈ visited
    · rw [if_pos h]
      exact ptd_visited_subset net current ts visited stack
    · rw [if_neg h]
      exact (Finset.subset_insert _ _).trans (ptd_visited_subset net current ts _ _)

theorem ptd_stack_mono (net : PetriNet) (current : Marking) :
    ∀ (ts : List Transition) (visited : Finset Marking) (stack : List Marking),
      ∀ m ∈ stack, m ∈ (processTransitionsDFS net current ts visited stack).2
  | [], _, _, _, hm => hm
  | t :: ts, visited, stack, m, hm => by
    simp only [processTransitionsDFS]
    by_cases h : net.fire_transition current t ∈ visited
    · rw [if_pos h]
      exact ptd_stack_mono net current ts visited stack m hm
    · rw [if_neg h]
      exact ptd_stack_mono net current ts _ _ m (List.mem_cons_of_mem _ hm)

theorem ptd_card (net : PetriNet) (current : Marking) :
    ∀ (ts : List Transition) (visited : Finset Marking) (stack : List Marking),
      (processTransitionsDFS net current ts visited stack).1.card + stack.length =
        visited.card + (processTransitionsDFS net current ts visited stack).2.length
  | [], _, _ => rfl
  | t :: ts, visited, stack => by
    simp only [processTransitionsDFS]
    by_cases h : net.fire_transition current t ∈ visited
    · rw [if_pos h]
      exact ptd_card net current ts visited stack
    · rw [if_neg h]
      have ih := ptd_card net current ts (insert (net.fire_transition current t) visited)
        (net.fire_transition current t :: stack)
      rw [Finset.card_insert_of_not_mem h, List.length_cons] at ih
      omega

theorem ptd_fires_mem (net : PetriNet) (current : Marking) :
    ∀ (ts : List Transition) (visited : Finset Marking) (stack : List Marking),
      ∀ t ∈ ts,
        net.fire_transition current t ∈ (processTransitionsDFS net current ts visited stack).1
  | t' :: ts, visited, stack, t, ht => by
    simp only [processTransitionsDFS]
    rcases List.mem_cons.mp ht with rfl | ht'
    · by_cases h : net.fire_transition current t ∈ visited
      · rw [if_pos h]
        exact ptd_visited_subset net current ts visited stack h
      · rw [if_neg h]
        exact ptd_visited_subset net current ts _ _ (Finset.mem_insert_self _ _)
    · by_cases h : net.fire_transition current t' ∈ visited
      · rw [if_pos h]
        exact ptd_fires_mem net current ts visited stack t ht'
      · rw [if_neg h]
        exact ptd_fires_mem net current ts _ _ t ht'

theorem ptd_visited_src (net : PetriNet) (current : Marking) :
    ∀ (ts : List Transition) (visited : Finset Marking) (stack : List Marking),
      ∀ m ∈ (processTransitionsDFS net current ts visited stack).1,
        m ∈ visited ∨ ∃ t ∈ ts, m = net.fire_transition current t
  | [], _, _, _, hm => Or.inl hm
  | t :: ts, visited, stack, m, hm => by
    simp only [processTransitionsDFS] at hm
    by_cases h : net.fire_transition current t ∈ visited
    · rw [if_pos h] at hm
      rcases ptd_visited_src net current ts visited stack m hm with hv | ⟨t', ht', he⟩
      · exact Or.inl hv
      · exact Or.inr ⟨t', List.mem_cons_of_mem _ ht', he⟩
    · rw [if_neg h] at hm
      rcases ptd_visited_src net current ts _ _ m hm with hv | ⟨t', ht', he⟩
      · rcases Finset.mem_insert.mp hv with he | hv
        · exact Or.inr ⟨t, List.mem_cons_self _ _, he⟩
        · exact Or.inl hv
      · exact Or.inr ⟨t', List.mem_cons_of_mem _ ht', he⟩

theorem ptd_stack_src (net : PetriNet) (current : Marking) :
    ∀ (ts : List Transition) (visited : Finset Marking) (stack : List Marking),
      ∀ m ∈ (processTransitionsDFS net current ts visited stack).2,
        m ∈ stack ∨ ∃ t ∈ ts, m = net.fire_transition current t
  | [], _, _, _, hm => Or.inl hm
  | t :: ts, visited, stack, m, hm => by
    simp only [processTransitionsDFS] at hm
    by_cases h : net.fire_transition current t ∈ visited
    · rw [if_pos h] at hm
      rcases ptd_stack_src net current ts visited stack m hm with hv | ⟨t', ht', he⟩
      · exact Or.inl hv
      · exact Or.inr ⟨t', List.mem_cons_of_mem _ ht', he⟩
    · rw [if_neg h] at hm
      rcases ptd_stack_src net current ts _ _ m hm with hv | ⟨t', ht', he⟩
      · rcases List.mem_cons.mp hv with hq | hq
        · exact Or.inr ⟨t, List.mem_cons_self _ _, hq⟩
        · exact Or.inl hq
      · exact Or.inr ⟨t', List.mem_cons_of_mem _ ht', he⟩

theorem ptd_stack_sub_visited (net : PetriNet) (current : Marking) :
    ∀ (ts : List Transition) (visited : Finset Marking) (stack : List Marking),
      (∀ m ∈ stack, m ∈ visited) →
      ∀ m ∈ (processTransitionsDFS net current ts visited stack).2,
        m ∈ (processTransitionsDFS net current ts visited stack).1
  | [], _, _, hq, _, hm => hq _ hm
  | t :: ts, visited, stack, hq, m, hm => by
    simp only [processTransitionsDFS] at hm ⊢
    by_cases h : net.fire_transition current t ∈ visited
    · rw [if_pos h] at hm ⊢
      exact ptd_stack_sub_visited net current ts visited stack hq m hm
    · rw [if_neg h] at hm ⊢
      refine ptd_stack_sub_visited net current ts _ _ ?_ m hm
      intro x hx
      rcases List.mem_cons.mp hx with hx | hx
      · exact hx ▸ Finset.mem_insert_self _ _
      · exact Finset.mem_insert_of_mem (hq x hx)

theorem ptd_new_in_stack (net : PetriNet) (current : Marking) :
    ∀ (ts : List Transition) (visited : Finset Marking) (stack : List Marking),
      ∀ m ∈ (processTransitionsDFS net current ts visited stack).1,
        m ∈ visited ∨ m ∈ (processTransitionsDFS net current ts visited stack).2
  | [], _, _, _, hm => Or.inl hm
  | t :: ts, visited, stack, m, hm => by
    simp only [processTransitionsDFS] at hm ⊢
    by_cases h : net.fire_transition current t ∈ visited
    · rw [if_pos h] at hm ⊢
      exact ptd_new_in_stack net current ts visited stack m hm
    · rw [if_neg h] at hm ⊢
      rcases ptd_new_in_stack net current ts _ _ m hm with hv | hqm
      · rcases Finset.mem_insert.mp hv with rfl | hv
        · exact Or.inr (ptd_stack_mono net current ts _ _ _ (List.mem_cons_self _ _))
        · exact Or.inl hv
      · exact Or.inr hqm

theorem dfs_aux_mono (net : PetriNet) :
    ∀ (fuel : ℕ) (visited : Finset Marking) (stack : List Marking) (r : Finset Marking),
      dfs_aux net fuel visited stack = some r → visited ⊆ r
  | fuel, visited, [], r, h => by
    rw [dfs_aux] at h
    exact (Option.some.inj h) ▸ Finset.Subset.refl _
  | 0, visited, m :: rest, r, h => by rw [dfs_aux] at h; exact absurd h (by simp)
  | fuel + 1, visited, current :: rest, r, h => by
    simp only [dfs_aux] at h
    exact (ptd_visited_subset net current _ visited rest).trans (dfs_aux_mono net fuel _ _ r h)

theorem dfs_aux_sound (net : PetriNet) :
    ∀ (fuel : ℕ) (visited : Finset Marking) (stack : List Marking) (r : Finset Marking),
      dfs_aux net fuel visited stack = some r →
      (∀ m ∈ visited, Reaches net m) → (∀ m ∈ stack, Reaches net m) →
      ∀ m ∈ r, Reaches net m
  | fuel, visited, [], r, h, hv, _ => by
    rw [dfs_aux] at h
    exact (Option.some.inj h) ▸ hv
  | 0, visited, m :: rest, r, h, _, _ => by rw [dfs_aux] at h; exact absurd h (by simp)
  | fuel + 1, visited, current :: rest, r, h, hv, hq => by
    simp only [dfs_aux] at h
    have hcur : Reaches net current := hq current (List.mem_cons_self _ _)
    refine dfs_aux_sound net fuel _ _ r h ?_ ?_
    · intro m hm
      rcases ptd_visited_src net current _ visited rest m hm with h' | ⟨t, ht, rfl⟩
      · exact hv m h'
      · exact hcur.tail (step_of_mem_enabled net current t ht)
    · intro m hm
      rcases ptd_stack_src net current _ visited rest m hm with h' | ⟨t, ht, rfl⟩
      · exact hq m (List.mem_cons_of_mem _ h')
      · exact hcur.tail (step_of_mem_enabled net current t ht)

theorem dfs_aux_closed (net : PetriNet) :
    ∀ (fuel : ℕ) (visited : Finset Marking) (stack : List Marking) (r : Finset Marking),
      dfs_aux net fuel visited stack = some r →
      (∀ m ∈ stack, m ∈ visited) →
      (∀ m ∈ visited, m ∈ stack ∨
        ∀ t ∈ net.get_enabled_transitions m, net.fire_transition m t ∈ visited) →
      ∀ m ∈ r, ∀ t ∈ net.get_enabled_transitions m, net.fire_transition m t ∈ r
  | fuel, visited, [], r, h, _, hcl => by
    rw [dfs_aux] at h
    cases Option.some.inj h
    intro m hm t ht
    rcases hcl m hm with hq | hc
    · exact absurd hq (List.not_mem_nil m)
    · exact hc t ht
  | 0, visited, m :: rest, r, h, _, _ => by rw [dfs_aux] at h; exact absurd h (by simp)
  | fuel + 1, visited, current :: rest, r, h, hq, hcl => by
    simp only [dfs_aux] at h
    refine dfs_aux_closed net fuel _ _ r h ?_ ?_
    · exact ptd_stack_sub_visited net current _ visited rest
        (fun m hm => hq m (List.mem_cons_of_mem _ hm))
    · intro m hm
      rcases ptd_new_in_stack net current _ visited rest m hm with hv | hqm
      · rcases hcl m hv with hcq | hc
        · rcases List.mem_cons.mp hcq with rfl | hrest
          · exact Or.inr fun t ht => ptd_fires_mem net m _ visited rest t ht
          · exact Or.inl (ptd_stack_mono net current _ visited rest m hrest)
        · exact Or.inr fun t ht =>
            ptd_visited_subset net current _ visited rest (hc t ht)
      · exact Or.inl hqm

theorem dfs_aux_isSome (net : PetriNet) :
    ∀ (fuel : ℕ) (visited : Finset Marking) (stack : List Marking),
      ↑visited ⊆ (boolMarkings net.places.length : Finset Marking).toSet →
      (∀ m ∈ stack, m ∈ boolMarkings net.places.length) →
      2 * ((boolMarkings net.places.length).card - visited.card) + stack.length < fuel →
      (dfs_aux net fuel visited stack).isSome
  | 0, visited, stack, _, _, hfuel => absurd hfuel (by omega)
  | fuel + 1, visited, [], _, _, _ => by rw [dfs_aux]; rfl
  | fuel + 1, visited, current :: rest, hv, hq, hfuel => by
    simp only [dfs_aux]
    have hcur : current ∈ boolMarkings net.places.length := hq current (List.mem_cons_self _ _)
    have hv' : ↑(processTransitionsDFS net current (net.get_enabled_transitions current)
        visited rest).1 ⊆ (boolMarkings net.places.length : Finset Marking).toSet := by
      intro m hm
      rcases ptd_visited_src net current _ visited rest m hm with h' | ⟨t, _, rfl⟩
      · exact hv h'
      · exact fire_mem_boolMarkings net current t hcur
    have hq' : ∀ m ∈ (processTransitionsDFS net current (net.get_enabled_transitions current)
        visited rest).2, m ∈ boolMarkings net.places.length := by
      intro m hm
      rcases ptd_stack_src net current _ visited rest m hm with h' | ⟨t, _, rfl⟩
      · exact hq m (List.mem_cons_of_mem _ h')
      · exact fire_mem_boolMarkings net current t hcur
    refine dfs_aux_isSome net fuel _ _ hv' hq' ?_
    have hcard := ptd_card net current (net.get_enabled_transitions current) visited rest
    have hsub := ptd_visited_subset net current (net.get_enabled_transitions current) visited rest
    have h₁ : visited.card ≤ (processTransitionsDFS net current
        (net.get_enabled_transitions current) visited rest).1.card :=
      Finset.card_le_card hsub
    have h₂ : (processTransitionsDFS net current (net.get_enabled_transitions current)
        visited rest).1.card ≤ (boolMarkings net.places.length).card := by
      apply Finset.card_le_card
      intro m hm
      exact hv' hm
    simp only [List.length_cons] at hfuel
    omega

theorem dfs_run_isSome (net : PetriNet) :
    (dfs_aux net (explorationFuel net) {net.get_initial_marking_tuple}
      [net.get_initial_marking_tuple]).isSome := by
  apply dfs_aux_isSome
  · intro m hm
    rw [Finset.mem_coe, Finset.mem_singleton] at hm
    exact hm ▸ initial_mem_boolMarkings net
  · intro m hm
    rw [List.mem_singleton] at hm
    exact hm ▸ initial_mem_boolMarkings net
  · have h := card_boolMarkings net.places.length
    simp only [Finset.card_singleton, List.length_singleton, explorationFuel]
    omega

theorem dfs_compute_eq_of_run {net : PetriNet} {r : Finset Marking}
    (h : dfs_aux net (explorationFuel net) {net.get_initial_marking_tuple}
      [net.get_initial_marking_tuple] = some r) :
    compute_dfs_reachability net = r := by
  rw [compute_dfs_reachability]
  simp only [h, Option.getD_some]

/-- Membership in the depth-first set is also exactly reachability. -/
theorem dfs_reachability_exact (net : PetriNet) (m : Marking) :
    m ∈ compute_dfs_reachability net ↔ Reaches net m := by
  obtain ⟨r, hr⟩ := Option.isSome_iff_exists.mp (dfs_run_isSome net)
  rw [dfs_compute_eq_of_run hr]
  have hinit : net.get_initial_marking_tuple ∈ r :=
    dfs_aux_mono net _ _ _ r hr (Finset.mem_singleton_self _)
  constructor
  · intro hm
    refine dfs_aux_sound net _ _ _ r hr ?_ ?_ m hm
    · intro x hx
      rw [Finset.mem_singleton] at hx
      exact hx ▸ Relation.ReflTransGen.refl
    · intro x hx
      rw [List.mem_singleton] at hx
      exact hx ▸ Relation.ReflTransGen.refl
  · intro hm
    have hclosed := dfs_aux_closed net _ _ _ r hr
      (fun x hx => by rw [List.mem_singleton] at hx; exact hx ▸ Finset.mem_singleton_self _)
      (fun x hx => Or.inl (by
        rw [Finset.mem_singleton] at hx; exact hx ▸ List.mem_singleton_self _))
    induction hm with
    | refl => exact hinit
    | tail _ hstep ih =>
      rcases hstep with ⟨t, ht, hen, rfl⟩
      exact hclosed _ ih t ((mem_enabled_iff net _ t).mpr ⟨ht, hen⟩)

/-! ## Codec lemmas: place order and index lookup -/

theorem sorted_place_ids_sorted (net : PetriNet) : net.sorted_place_ids.Sorted strLe :=
  List.sorted_insertionSort strLe _

theorem sorted_place_ids_perm (net : PetriNet) :
    net.sorted_place_ids.Perm (net.places.map Place.id) :=
  List.perm_insertionSort strLe _

theorem mem_sorted_place_ids (net : PetriNet) {pid : String} :
    pid ∈ net.sorted_place_ids ↔ pid ∈ net.places.map Place.id :=
  (sorted_place_ids_perm net).mem_iff

theorem index_lt_of_mem (net : PetriNet) {pid : String}
    (h : pid ∈ net.places.map Place.id) :
    net.place_id_to_index pid < net.sorted_place_ids.length :=
  List.indexOf_lt_length.mpr ((mem_sorted_place_ids net).mpr h)

/-- Round trip, index side: the id at position `i` of the sorted place
list maps back to `i` (place ids assumed unique, as the places dict
guarantees). -/
theorem place_id_to_index_get (net : PetriNet)
    (hnd : (net.places.map Place.id).Nodup) (i : Fin net.sorted_place_ids.length) :
    net.place_id_to_index (net.sorted_place_ids.get i) = i :=
  List.get_indexOf ((sorted_place_ids_perm net).nodup_iff.mpr hnd) i

/-- Round trip, id side: every place id is recovered from its index. -/
theorem get_place_id_to_index (net : PetriNet) {pid : String}
    (h : pid ∈ net.places.map Place.id) :
    net.sorted_place_ids.get ⟨net.place_id_to_index pid, index_lt_of_mem net h⟩ = pid :=
  List.indexOf_get _

/-- Two nets with the same place-id collection share the place order. -/
theorem sorted_place_ids_canonical {net₁ net₂ : PetriNet}
    (h : (net₁.places.map Place.id).Perm (net₂.places.map Place.id)) :
    net₁.sorted_place_ids = net₂.sorted_place_ids :=
  List.eq_of_perm_of_sorted
    ((sorted_place_ids_perm net₁).trans (h.trans (sorted_place_ids_perm net₂).symm))
    (sorted_place_ids_sorted net₁) (sorted_place_ids_sorted net₂)

/-- Distinct place ids occupy distinct marking positions. -/
theorem place_id_to_index_inj (net : PetriNet) {p q : String}
    (hp : p ∈ net.places.map Place.id) (hq : q ∈ net.places.map Place.id)
    (h : net.place_id_to_index p = net.place_id_to_index q) : p = q := by
  calc p = net.sorted_place_ids.get ⟨net.place_id_to_index p, index_lt_of_mem net hp⟩ :=
        (get_place_id_to_index net hp).symm
    _ = net.sorted_place_ids.get ⟨net.place_id_to_index q, index_lt_of_mem net hq⟩ := by
        congr 1
        exact Fin.ext h
    _ = q := get_place_id_to_index net hq

/-! ## Pointwise description of firing and enabledness -/

/-- The marking positions of a transition's input places. -/
def inputIndices (net : PetriNet) (t : Transition) : List ℕ :=
  t.inputs.map fun p => net.place_id_to_index p.id

/-- The marking positions of a transition's output places. -/
def outputIndices (net : PetriNet) (t : Transition) : List ℕ :=
  t.outputs.map fun p => net.place_id_to_index p.id

/-- What `fire_transition` does at each position: output positions read 1,
remaining input positions read 0, everything else is copied. -/
theorem fire_transition_getD (net : PetriNet) (m : Marking) (t : Transition)
    (i : ℕ) (hi : i < m.length) :
    (net.fire_transition m t).getD i 0 =
      if i ∈ outputIndices net t then 1
      else if i ∈ inputIndices net t then 0
      else m.getD i 0 := by
  simp only [PetriNet.fire_transition, inputIndices, outputIndices]
  rw [getD_foldl_set _ 1 t.outputs _ i (by rw [length_foldl_set]; exact hi)]
  rw [getD_foldl_set _ 0 t.inputs m i hi]

theorem getD_zero_or_one {m : Marking} (hm : ∀ x ∈ m, x = 0 ∨ x = 1) (i : ℕ) :
    m.getD i 0 = 0 ∨ m.getD i 0 = 1 := by
  by_cases h : i < m.length
  · rw [List.getD_eq_getElem m 0 h]
    exact hm _ (List.getElem_mem h)
  · rw [List.getD_eq_default m 0 (le_of_not_lt h)]
    exact Or.inl rfl

/-- The enabledness test, characterised: over a 0/1 marking, a transition
is enabled iff every input place reads 1. -/
theorem is_enabled_iff (net : PetriNet) (m : Marking) (t : Transition)
    (hm : ∀ x ∈ m, x = 0 ∨ x = 1) :
    net.is_enabled m t = true ↔
      ∀ p ∈ t.inputs, m.getD (net.place_id_to_index p.id) 0 = 1 := by
  rw [PetriNet.is_enabled, List.all_eq_true]
  constructor
  · intro h p hp
    have := h p hp
    simp only [Bool.not_eq_true', beq_eq_false_iff_ne, ne_eq] at this
    rcases getD_zero_or_one hm (net.place_id_to_index p.id) with h0 | h1
    · exact absurd h0 this
    · exact h1
  · intro h p hp
    simp only [Bool.not_eq_true', beq_eq_false_iff_ne, ne_eq, h p hp]
    exact one_ne_zero

theorem getD_replicate_zero (n i : ℕ) : (List.replicate n (0 : ℕ)).getD i 0 = 0 := by
  rcases lt_or_ge i n with h | h
  · rw [List.getD_eq_getElem _ _ (by simpa using h), List.getElem_replicate]
  · rw [List.getD_eq_default _ _ (by simpa using h)]

/-- A place whose declared initial marking is anything other than `1`
(zero, two, a negative int, …) contributes entry 0 to the initial
marking tuple. -/
theorem initial_getD_of_not_one (net : PetriNet)
    (hnd : (net.places.map Place.id).Nodup) {p : Place} (hp : p ∈ net.places)
    (hm : p.initial_marking ≠ 1) :
    net.get_initial_marking_tuple.getD (net.place_id_to_index p.id) 0 = 0 := by
  rw [PetriNet.get_initial_marking_tuple,
    getD_foldl_cond_set_of_not_written _ _ _ _ _ _ ?_, getD_replicate_zero]
  intro q hq hq1 hcontra
  have hqid : q.id = p.id :=
    place_id_to_index_inj net (List.mem_map_of_mem _ hq) (List.mem_map_of_mem _ hp) hcontra
  have : q = p := List.inj_on_of_nodup_map hnd hq hp hqid
  exact hm (this ▸ hq1)

/-! ## Construction of a net from structural data

The non-XML part of `parse_pnml`: dictionary insertion for places and
transitions (a later entry with the same id silently replaces the earlier
value, keeping its position), then the arc loop, which skips incomplete
arcs, arcs with an unknown endpoint, and same-kind arcs, and otherwise
appends the source/target place to the matching transition's
input/output list. -/

/-- Python dict assignment `d[key v] = v`: replace in place if the key
exists (keeping insertion position), else append. -/
def dictUpsert {β : Type} (key : β → String) (l : List β) (v : β) : List β :=
  if l.any (fun q => key q == key v) then l.map fun q => if key q == key v then v else q
  else l ++ [v]

/-- One iteration of the arc loop of `parse_pnml`. -/
def addArc (places : List Place) (ts : List Transition) (aid src tgt : String) :
    List Transition :=
  if aid = "" ∨ src = "" ∨ tgt = "" then ts
  else if !(places.any (fun p => p.id == src) || ts.any (fun t => t.id == src)) then ts
  else if !(places.any (fun p => p.id == tgt) || ts.any (fun t => t.id == tgt)) then ts
  else if places.any (fun p => p.id == src) && ts.any (fun t => t.id == tgt) then
    match places.find? (fun p => p.id == src) with
    | some pl => ts.map fun t => if t.id == tgt then { t with inputs := t.inputs ++ [pl] } else t
    | none => ts
  else if ts.any (fun t => t.id == src) && places.any (fun p => p.id == tgt) then
    match places.find? (fun p => p.id == tgt) with
    | some pl => ts.map fun t => if t.id == src then { t with outputs := t.outputs ++ [pl] } else t
    | none => ts
  else ts

/-- `parse_pnml` after the XML layer: build the places dict, the
transitions dict, then connect arcs. Empty ids model the falsy-id skip. -/
def build_net (placeData : List (String × Int)) (transIds : List String)
    (arcs : List (String × String × String)) : PetriNet :=
  let places := placeData.foldl
    (fun l pd => if pd.1 = "" then l else dictUpsert Place.id l ⟨pd.1, pd.2⟩) []
  let transitions₀ := transIds.foldl
    (fun l tid => if tid = "" then l else dictUpsert Transition.id l ⟨tid, [], []⟩) []
  let transitions := arcs.foldl (fun ts a => addArc places ts a.1 a.2.1 a.2.2) transitions₀
  ⟨places, transitions⟩

theorem dictUpsert_keys_of_exists {β : Type} (key : β → String) (l : List β) (v : β)
    (h : l.any (fun q => key q == key v) = true) :
    (dictUpsert key l v).map key = l.map key := by
  rw [dictUpsert, if_pos h, List.map_map]
  apply List.map_congr_left
  intro q _
  simp only [Function.comp_apply]
  split
  · next hq => exact (eq_of_beq hq).symm
  · rfl

theorem dictUpsert_keys_nodup {β : Type} (key : β → String) (l : List β) (v : β)
    (h : (l.map key).Nodup) : ((dictUpsert key l v).map key).Nodup := by
  by_cases hex : l.any (fun q => key q == key v) = true
  · rw [dictUpsert_keys_of_exists key l v hex]
    exact h
  · rw [dictUpsert, if_neg hex, List.map_append]
    rw [List.nodup_append]
    refine ⟨h, List.nodup_singleton _, ?_⟩
    intro k hk
    simp only [List.map_cons, List.map_nil, List.mem_singleton]
    intro hkv
    subst hkv
    rcases List.mem_map.mp hk with ⟨q, hq, hqk⟩
    rw [List.any_eq_true] at hex
    exact hex ⟨q, hq, beq_iff_eq.mpr hqk⟩

theorem dictUpsert_keys_mem {β : Type} (key : β → String) (l : List β) (v : β) (k : String) :
    k ∈ (dictUpsert key l v).map key ↔ k ∈ l.map key ∨ k = key v := by
  by_cases hex : l.any (fun q => key q == key v) = true
  · rw [dictUpsert_keys_of_exists key l v hex]
    constructor
    · exact Or.inl
    · rintro (h | rfl)
      · exact h
      · rw [List.any_eq_true] at hex
        rcases hex with ⟨q, hq, hqv⟩
        exact List.mem_map.mpr ⟨q, hq, eq_of_beq hqv⟩
  · rw [dictUpsert, if_neg hex, List.map_append]
    simp [List.mem_append]

/-- An arc whose source or target id resolves to no place and no
transition is skipped: the transitions are unchanged (there is no
`StructuralError`; the code prints a message and continues). -/
theorem addArc_skips_unknown (places : List Place) (ts : List Transition)
    (aid src tgt : String)
    (h : (¬(places.any (fun p => p.id == src) = true ∨ ts.any (fun t => t.id == src) = true)) ∨
         (¬(places.any (fun p => p.id == tgt) = true ∨ ts.any (fun t => t.id == tgt) = true))) :
    addArc places ts aid src tgt = ts := by
  rw [addArc]
  by_cases h0 : aid = "" ∨ src = "" ∨ tgt = ""
  · rw [if_pos h0]
  · rw [if_neg h0]
    rcases h with h | h
    · obtain ⟨h1, h2⟩ := not_or.mp h
      rw [Bool.not_eq_true] at h1 h2
      rw [if_pos (by rw [h1, h2]; rfl)]
    · obtain ⟨h1, h2⟩ := not_or.mp h
      rw [Bool.not_eq_true] at h1 h2
      by_cases hsrc : (places.any (fun p => p.id == src) || ts.any (fun t => t.id == src)) = true
      · rw [if_neg (by rw [hsrc]; simp), if_pos (by rw [h1, h2]; rfl)]
      · rw [if_pos (by rw [Bool.not_eq_true] at hsrc; rw [hsrc]; rfl)]

theorem addArc_keys (places : List Place) (ts : List Transition) (aid src tgt : String) :
    (addArc places ts aid src tgt).map Transition.id = ts.map Transition.id := by
  rw [addArc]
  split
  · rfl
  split
  · rfl
  split
  · rfl
  split
  · split
    · rw [List.map_map]
      apply List.map_congr_left
      intro t _
      simp only [Function.comp_apply]
      split <;> rfl
    · rfl
  split
  · split
    · rw [List.map_map]
      apply List.map_congr_left
      intro t _
      simp only [Function.comp_apply]
      split <;> rfl
    · rfl
  · rfl

theorem places_fold_nodup :
    ∀ (data : List (String × Int)) (l : List Place), (l.map Place.id).Nodup →
      ((data.foldl (fun l pd => if pd.1 = "" then l else dictUpsert Place.id l ⟨pd.1, pd.2⟩)
        l).map Place.id).Nodup
  | [], _, h => h
  | pd :: data, l, h => by
    rw [List.foldl_cons]
    apply places_fold_nodup data
    split
    · exact h
    · exact dictUpsert_keys_nodup _ _ _ h

theorem places_fold_mem :
    ∀ (data : List (String × Int)) (l : List Place) (pid : String),
      (pid ∈ (data.foldl
          (fun l pd => if pd.1 = "" then l else dictUpsert Place.id l ⟨pd.1, pd.2⟩)
          l).map Place.id) ↔
        pid ∈ l.map Place.id ∨ (pid ∈ data.map Prod.fst ∧ pid ≠ "")
  | [], l, pid => by simp
  | pd :: data, l, pid => by
    rw [List.foldl_cons, places_fold_mem data _ pid]
    by_cases hpd : pd.1 = ""
    · rw [if_pos hpd]
      simp only [List.map_cons, List.mem_cons]
      constructor
      · rintro (h | h)
        · exact Or.inl h
        · exact Or.inr ⟨Or.inr h.1, h.2⟩
      · rintro (h | ⟨(h | h), hne⟩)
        · exact Or.inl h
        · exact absurd (h.trans hpd) hne
        · exact Or.inr ⟨h, hne⟩
    · rw [if_neg hpd, dictUpsert_keys_mem]
      simp only [List.map_cons, List.mem_cons]
      constructor
      · rintro ((h | h) | h)
        · exact Or.inl h
        · exact Or.inr ⟨Or.inl h, h ▸ hpd⟩
        · exact Or.inr ⟨Or.inr h.1, h.2⟩
      · rintro (h | ⟨(h | h), hne⟩)
        · exact Or.inl (Or.inl h)
        · exact Or.inl (Or.inr h)
        · exact Or.inr ⟨h, hne⟩

theorem transitions_fold_nodup :
    ∀ (data : List String) (l : List Transition), (l.map Transition.id).Nodup →
      ((data.foldl (fun l tid => if tid = "" then l else dictUpsert Transition.id l ⟨tid, [], []⟩)
        l).map Transition.id).Nodup
  | [], _, h => h
  | tid :: data, l, h => by
    rw [List.foldl_cons]
    apply transitions_fold_nodup data
    split
    · exact h
    · exact dictUpsert_keys_nodup _ _ _ h

theorem transitions_fold_mem :
    ∀ (data : List String) (l : List Transition) (tid : String),
      (tid ∈ (data.foldl
          (fun l t => if t = "" then l else dictUpsert Transition.id l ⟨t, [], []⟩)
          l).map Transition.id) ↔
        tid ∈ l.map Transition.id ∨ (tid ∈ data ∧ tid ≠ "")
  | [], l, tid => by simp
  | t :: data, l, tid => by
    rw [List.foldl_cons, transitions_fold_mem data _ tid]
    by_cases hpd : t = ""
    · rw [if_pos hpd]
      simp only [List.mem_cons]
      constructor
      · rintro (h | h)
        · exact Or.inl h
        · exact Or.inr ⟨Or.inr h.1, h.2⟩
      · rintro (h | ⟨(h | h), hne⟩)
        · exact Or.inl h
        · exact absurd (h.trans hpd) hne
        · exact Or.inr ⟨h, hne⟩
    · rw [if_neg hpd, dictUpsert_keys_mem]
      simp only [List.mem_cons]
      constructor
      · rintro ((h | h) | h)
        · exact Or.inl h
        · exact Or.inr ⟨Or.inl h, h ▸ hpd⟩
        · exact Or.inr ⟨Or.inr h.1, h.2⟩
      · rintro (h | ⟨(h | h), hne⟩)
        · exact Or.inl (Or.inl h)
        · exact Or.inl (Or.inr h)
        · exact Or.inr ⟨h, hne⟩

theorem arcs_fold_keys (places : List Place) :
    ∀ (arcs : List (String × String × String)) (ts : List Transition),
      ((arcs.foldl (fun ts a => addArc places ts a.1 a.2.1 a.2.2) ts).map Transition.id) =
        ts.map Transition.id
  | [], _ => rfl
  | a :: arcs, ts => by
    rw [List.foldl_cons, arcs_fold_keys places arcs, addArc_keys]

/-- What construction actually guarantees about identifiers: the built
net has duplicate-free place and transition ids, and its id sets are
exactly the non-empty ids supplied (duplicates collapse, nothing is
rejected). -/
theorem build_net_ids (placeData : List (String × Int)) (transIds : List String)
    (arcs : List (String × String × String)) :
    (((build_net placeData transIds arcs).places).map Place.id).Nodup ∧
    (∀ pid, pid ∈ ((build_net placeData transIds arcs).places).map Place.id ↔
      (pid ∈ placeData.map Prod.fst ∧ pid ≠ "")) ∧
    (((build_net placeData transIds arcs).transitions).map Transition.id).Nodup ∧
    (∀ tid, tid ∈ ((build_net placeData transIds arcs).transitions).map Transition.id ↔
      (tid ∈ transIds ∧ tid ≠ "")) := by
  simp only [build_net]
  refine ⟨places_fold_nodup placeData [] (by simp), ?_, ?_, ?_⟩
  · intro pid
    rw [places_fold_mem placeData [] pid]
    simp
  · rw [arcs_fold_keys]
    exact transitions_fold_nodup transIds [] (by simp)
  · intro tid
    rw [arcs_fold_keys, transitions_fold_mem transIds [] tid]
    simp

/-! ## Expansion trace: no marking is expanded twice

`bfs_trace` is `bfs_aux` instrumented with the list of markings popped
and expanded, in order; proving that list duplicate-free states that no
marking is ever re-expanded. -/

/-- The BFS loop, also recording each expanded (popped) marking. -/
def bfs_trace (net : PetriNet) :
    Nat → Finset Marking → List Marking → List Marking → Option (List Marking)
  | _, _, [], trace => some trace
  | 0, _, _ :: _, _ => none
  | fuel + 1, visited, current :: rest, trace =>
    let vq := processTransitions net current (net.get_enabled_transitions current) visited rest
    bfs_trace net fuel vq.1 vq.2 (trace ++ [current])

/-- The inner loop keeps the frontier duplicate-free. -/
theorem pt_queue_nodup (net : PetriNet) (current : Marking) :
    ∀ (ts : List Transition) (visited : Finset Marking) (queue : List Marking),
      queue.Nodup → (∀ m ∈ queue, m ∈ visited) →
      (processTransitions net current ts visited queue).2.Nodup
  | [], _, _, hnd, _ => hnd
  | t :: ts, visited, queue, hnd, hq => by
    simp only [processTransitions]
    by_cases h : net.fire_transition current t ∈ visited
    · rw [if_pos h]
      exact pt_queue_nodup net current ts visited queue hnd hq
    · rw [if_neg h]
      refine pt_queue_nodup net current ts _ _ ?_ ?_
      · rw [List.nodup_append]
        refine ⟨hnd, List.nodup_singleton _, ?_⟩
        intro x hx
        rw [List.mem_singleton]
        rintro rfl
        exact h (hq _ hx)
      · intro x hx
        rcases List.mem_append.mp hx with hx | hx
        · exact Finset.mem_insert_of_mem (hq x hx)
        · exact List.mem_singleton.mp hx ▸ Finset.mem_insert_self _ _

/-- No marking is expanded twice: the trace of popped markings is
duplicate-free. -/
theorem bfs_trace_nodup (net : PetriNet) :
    ∀ (fuel : ℕ) (visited : Finset Marking) (queue trace tr : List Marking),
      bfs_trace net fuel visited queue trace = some tr →
      (trace ++ queue).Nodup →
      (∀ m ∈ trace, m ∈ visited) → (∀ m ∈ queue, m ∈ visited) →
      tr.Nodup
  | fuel, visited, [], trace, tr, h, hnd, _, _ => by
    rw [bfs_trace] at h
    cases Option.some.inj h
    simpa using hnd
  | 0, visited, m :: rest, trace, tr, h, _, _, _ => by
    rw [bfs_trace] at h
    exact absurd h (by simp)
  | fuel + 1, visited, current :: rest, trace, tr, h, hnd, htr, hq => by
    simp only [bfs_trace] at h
    have hcur : current ∈ visited := hq current (List.mem_cons_self _ _)
    have hnd' : (trace ++ current :: rest).Nodup := hnd
    have hsplit : ((trace ++ [current]) ++ rest).Nodup := by
      rwa [List.append_assoc, List.singleton_append]
    rcases List.nodup_append.mp hsplit with ⟨hnd₁, hndrest, hdisj⟩
    refine bfs_trace_nodup net fuel _ _ _ tr h ?_ ?_ ?_
    · rw [List.nodup_append]
      refine ⟨hnd₁, ?_, ?_⟩
      · exact pt_queue_nodup net current _ visited rest hndrest
          (fun m hm => hq m (List.mem_cons_of_mem _ hm))
      · intro x hx hx2
        rcases pt_queue_fresh net current _ visited rest x hx2 with hrest | ⟨hnv, _⟩
        · exact hdisj hx hrest
        · rcases List.mem_append.mp hx with hx' | hx'
          · exact hnv (htr x hx')
          · exact hnv (List.mem_singleton.mp hx' ▸ hcur)
    · intro m hm
      rcases List.mem_append.mp hm with hm' | hm'
      · exact pt_visited_subset net current _ visited rest (htr m hm')
      · exact pt_visited_subset net current _ visited rest
          (List.mem_singleton.mp hm' ▸ hcur)
    · exact pt_queue_sub_visited net current _ visited rest
        (fun m hm => hq m (List.mem_cons_of_mem _ hm))


/-! ## Concrete nets used as witnesses -/

/-- Transition `t1`: input `p1`, output `p2`. -/
def cycleT1 : Transition := ⟨"t1", [⟨"p1", 1⟩], [⟨"p2", 0⟩]⟩

/-- Transition `t2`: input `p2`, output `p1`. -/
def cycleT2 : Transition := ⟨"t2", [⟨"p2", 0⟩], [⟨"p1", 1⟩]⟩

/-- The two-place cycle net: places `p1`(1), `p2`(0); `t1 : p1 → p2`,
`t2 : p2 → p1` (spec §8 scenario 3). -/
def cycleNet : PetriNet := ⟨[⟨"p1", 1⟩, ⟨"p2", 0⟩], [cycleT1, cycleT2]⟩

/-- The same place set supplied in the opposite arrival order. -/
def reorderedNet : PetriNet := ⟨[⟨"p2", 0⟩, ⟨"p1", 1⟩], []⟩

/-- A net whose place `p1` declares the non-boolean initial marking 2. -/
def oddNet : PetriNet := ⟨[⟨"p1", 2⟩, ⟨"p2", 1⟩], []⟩

/-! ## The claims -/

/-- C1: for every NetModel, the set returned by
`compute_explicit_reachability` is finite (it is a `Finset`), non-empty,
contains the initial marking, and consists exactly of the markings
reachable from the initial marking by finite sequences of
enabled-transition firings. -/
theorem claim_c1_exact_reachability (net : PetriNet) :
    (compute_explicit_reachability net).Nonempty ∧
    net.get_initial_marking_tuple ∈ compute_explicit_reachability net ∧
    (∀ m : Marking, m ∈ compute_explicit_reachability net ↔ Reaches net m) :=
  ⟨⟨net.get_initial_marking_tuple, initial_mem_compute net⟩, initial_mem_compute net,
    reachability_exact net⟩

/-- C2: `fire_transition` copies the marking, sets every input-place
entry to 0, then every output-place entry to 1, leaving other entries
unchanged; a place that is both input and output ends at 1. -/
theorem claim_c2_fire_pointwise (net : PetriNet) (m : Marking) (t : Transition)
    (i : ℕ) (hi : i < m.length) :
    (net.fire_transition m t).length = m.length ∧
    (net.fire_transition m t).getD i 0 =
      (if i ∈ outputIndices net t then 1
       else if i ∈ inputIndices net t then 0
       else m.getD i 0) ∧
    (i ∈ inputIndices net t → i ∈ outputIndices net t →
      (net.fire_transition m t).getD i 0 = 1) :=
  ⟨length_fire net m t, fire_transition_getD net m t i hi, fun _ ho => by
    rw [fire_transition_getD net m t i hi, if_pos ho]⟩

/-- Witness for C2 at the cycle net, marking (1,0), transition `t1`,
position 0. -/
theorem claim_c2_fire_pointwise_witness :
    (0 : ℕ) < ([1, 0] : Marking).length ∧
    ((cycleNet.fire_transition [1, 0] cycleT1).length = ([1, 0] : Marking).length ∧
     (cycleNet.fire_transition [1, 0] cycleT1).getD 0 0 =
       (if 0 ∈ outputIndices cycleNet cycleT1 then 1
        else if 0 ∈ inputIndices cycleNet cycleT1 then 0
        else ([1, 0] : Marking).getD 0 0) ∧
     (0 ∈ inputIndices cycleNet cycleT1 → 0 ∈ outputIndices cycleNet cycleT1 →
       (cycleNet.fire_transition [1, 0] cycleT1).getD 0 0 = 1)) :=
  ⟨by decide, claim_c2_fire_pointwise cycleNet [1, 0] cycleT1 0 (by decide)⟩

/-- C3: over a 0/1 marking, `get_enabled_transitions` reports a
transition of the net enabled iff every input place reads 1; a
transition with no inputs is always enabled. -/
theorem claim_c3_enabledness (net : PetriNet) (m : Marking) (t : Transition)
    (hm : ∀ x ∈ m, x = 0 ∨ x = 1) (ht : t ∈ net.transitions) :
    (t ∈ net.get_enabled_transitions m ↔
      ∀ p ∈ t.inputs, m.getD (net.place_id_to_index p.id) 0 = 1) ∧
    (t.inputs = [] → t ∈ net.get_enabled_transitions m) := by
  constructor
  · rw [mem_enabled_iff]
    constructor
    · intro h
      exact (is_enabled_iff net m t hm).mp h.2
    · intro h
      exact ⟨ht, (is_enabled_iff net m t hm).mpr h⟩
  · intro hempty
    rw [mem_enabled_iff]
    refine ⟨ht, (is_enabled_iff net m t hm).mpr ?_⟩
    rw [hempty]
    intro p hp
    exact absurd hp (List.not_mem_nil p)

/-- Witness for C3 at the cycle net, marking (1,0), transition `t1`. -/
theorem claim_c3_enabledness_witness :
    (∀ x ∈ ([1, 0] : Marking), x = 0 ∨ x = 1) ∧
    cycleT1 ∈ cycleNet.transitions ∧
    ((cycleT1 ∈ cycleNet.get_enabled_transitions [1, 0] ↔
       ∀ p ∈ cycleT1.inputs, ([1, 0] : Marking).getD (cycleNet.place_id_to_index p.id) 0 = 1) ∧
     (cycleT1.inputs = [] → cycleT1 ∈ cycleNet.get_enabled_transitions [1, 0])) :=
  ⟨by decide, by decide, claim_c3_enabledness cycleNet [1, 0] cycleT1 (by decide) (by decide)⟩

/-- C4: the BFS loop terminates (the fuel bound is never exhausted), the
visited set holds at most `2 ^ (place count)` markings, a marking is
appended to the frontier only when not yet visited, and no marking is
expanded (popped) twice. -/
theorem claim_c4_termination (net : PetriNet) :
    (bfs_aux net (explorationFuel net) {net.get_initial_marking_tuple}
      [net.get_initial_marking_tuple]).isSome ∧
    (compute_explicit_reachability net).card ≤ 2 ^ net.places.length ∧
    (∀ (current : Marking) (ts : List Transition) (visited : Finset Marking)
      (rest : List Marking), ∀ m ∈ (processTransitions net current ts visited rest).2,
        m ∈ rest ∨ (m ∉ visited ∧ m ∈ (processTransitions net current ts visited rest).1)) ∧
    (∀ tr : List Marking, bfs_trace net (explorationFuel net) {net.get_initial_marking_tuple}
      [net.get_initial_marking_tuple] [] = some tr → tr.Nodup) :=
  ⟨bfs_run_isSome net, compute_card_le net,
    fun current ts visited rest => pt_queue_fresh net current ts visited rest,
    fun tr h => bfs_trace_nodup net _ _ _ _ tr h (by simp) (by simp)
      (fun m hm => by rw [List.mem_singleton] at hm; exact hm ▸ Finset.mem_singleton_self _)⟩

/-- Witness for C4 at the cycle net: one inner-loop call and the full
expansion trace, with the hypotheses discharged concretely. -/
theorem claim_c4_termination_witness :
    (([0, 1] : Marking) ∈ (processTransitions cycleNet [1, 0] [cycleT1] ∅ []).2) ∧
    (bfs_trace cycleNet (explorationFuel cycleNet) {cycleNet.get_initial_marking_tuple}
      [cycleNet.get_initial_marking_tuple] [] = some [[1, 0], [0, 1]]) ∧
    (([0, 1] : Marking) ∈ ([] : List Marking) ∨
      (([0, 1] : Marking) ∉ (∅ : Finset Marking) ∧
       ([0, 1] : Marking) ∈ (processTransitions cycleNet [1, 0] [cycleT1] ∅ []).1)) ∧
    ([[1, 0], [0, 1]] : List Marking).Nodup :=
  ⟨by decide, by decide,
    (claim_c4_termination cycleNet).2.2.1 [1, 0] [cycleT1] ∅ [] [0, 1] (by decide),
    (claim_c4_termination cycleNet).2.2.2 [[1, 0], [0, 1]] (by decide)⟩

/-- C5: the depth-first variant (pop the newest frontier element)
computes exactly the same final set as the breadth-first explorer. -/
theorem claim_c5_dfs_bfs_agree (net : PetriNet) :
    compute_dfs_reachability net = compute_explicit_reachability net := by
  apply Finset.ext
  intro m
  rw [dfs_reachability_exact net m, reachability_exact net m]

/-- C6: on the concrete cycle net (p1(1), p2(0), t1 : p1→p2,
t2 : p2→p1) the explorer terminates and returns exactly
`{(1,0), (0,1)}`, of size 2. -/
theorem claim_c6_cycle_net :
    (bfs_aux cycleNet (explorationFuel cycleNet) {cycleNet.get_initial_marking_tuple}
      [cycleNet.get_initial_marking_tuple]).isSome ∧
    compute_explicit_reachability cycleNet = {[1, 0], [0, 1]} ∧
    (compute_explicit_reachability cycleNet).card = 2 := by
  refine ⟨by decide, ?_, by decide⟩
  refine (Finset.eq_of_subset_of_card_le ?_ ?_).symm
  · intro m hm
    simp only [Finset.mem_insert, Finset.mem_singleton] at hm
    rcases hm with h | h <;> subst h <;> decide
  · have h : (compute_explicit_reachability cycleNet).card = 2 := by decide
    rw [h]
    decide

/-- C7: the place order is the place ids sorted ascending (sorted and a
permutation of the ids); the codec round-trips in both directions; two
nets with identical place-id sets get identical place orders. -/
theorem claim_c7_codec_roundtrip (net : PetriNet)
    (hnd : (net.places.map Place.id).Nodup) :
    net.sorted_place_ids.Sorted strLe ∧
    net.sorted_place_ids.Perm (net.places.map Place.id) ∧
    (∀ i : Fin net.sorted_place_ids.length,
      net.place_id_to_index (net.sorted_place_ids.get i) = i) ∧
    (∀ (pid : String) (h : pid ∈ net.places.map Place.id),
      net.sorted_place_ids.get ⟨net.place_id_to_index pid, index_lt_of_mem net h⟩ = pid) ∧
    (∀ net₂ : PetriNet, (net.places.map Place.id).Perm (net₂.places.map Place.id) →
      net.sorted_place_ids = net₂.sorted_place_ids) :=
  ⟨sorted_place_ids_sorted net, sorted_place_ids_perm net,
    fun i => place_id_to_index_get net hnd i,
    fun _ h => get_place_id_to_index net h,
    fun _ h => sorted_place_ids_canonical h⟩

/-- Witness for C7 at the cycle net, including the arrival-order
independence against the reversed net. -/
theorem claim_c7_codec_roundtrip_witness :
    (cycleNet.places.map Place.id).Nodup ∧
    cycleNet.place_id_to_index (cycleNet.sorted_place_ids.get ⟨0, by decide⟩) = 0 ∧
    cycleNet.sorted_place_ids = reorderedNet.sorted_place_ids :=
  ⟨by decide,
    (claim_c7_codec_roundtrip cycleNet (by decide)).2.2.1 ⟨0, by decide⟩,
    (claim_c7_codec_roundtrip cycleNet (by decide)).2.2.2.2 reorderedNet (by decide)⟩

/-- C8 counterexample: the claim says duplicate ids are rejected with a
ValidationError, but construction on a duplicate place id succeeds and
produces a net — the later entry silently replaces the earlier one. -/
theorem claim_c8_counterexample :
    build_net [("p1", 1), ("p1", 0)] [] [] =
      { places := [{ id := "p1", initial_marking := 0 }], transitions := [] } := by
  decide

/-- C8 amended: construction never rejects input; the built net has
duplicate-free place and transition ids, whose sets are exactly the
non-empty supplied ids (duplicates collapse to a single entry, the last
value winning). -/
theorem claim_c8_duplicates_collapse (placeData : List (String × Int))
    (transIds : List String) (arcs : List (String × String × String)) :
    (((build_net placeData transIds arcs).places).map Place.id).Nodup ∧
    (∀ pid, pid ∈ ((build_net placeData transIds arcs).places).map Place.id ↔
      (pid ∈ placeData.map Prod.fst ∧ pid ≠ "")) ∧
    (((build_net placeData transIds arcs).transitions).map Transition.id).Nodup ∧
    (∀ tid, tid ∈ ((build_net placeData transIds arcs).transitions).map Transition.id ↔
      (tid ∈ transIds ∧ tid ≠ "")) :=
  build_net_ids placeData transIds arcs

/-- C9 counterexample: the claim says an arc with an unknown endpoint
makes construction fail with a StructuralError, but construction
succeeds: the arc is skipped and the net is produced unchanged. -/
theorem claim_c9_counterexample :
    build_net [("p1", 1)] ["t1"] [("a1", "ghost", "t1")] =
      { places := [{ id := "p1", initial_marking := 1 }],
        transitions := [{ id := "t1", inputs := [], outputs := [] }] } := by
  decide

/-- C9 amended: an arc whose source or target id resolves to no place
and no transition is skipped with a printed message — it contributes no
connection, and the transitions are unchanged; construction still yields
a net, which is what the explorer then runs on. -/
theorem claim_c9_unknown_arc_skipped (places : List Place) (ts : List Transition)
    (aid src tgt : String)
    (h : (¬(places.any (fun p => p.id == src) = true ∨
            ts.any (fun t => t.id == src) = true)) ∨
         (¬(places.any (fun p => p.id == tgt) = true ∨
            ts.any (fun t => t.id == tgt) = true))) :
    addArc places ts aid src tgt = ts :=
  addArc_skips_unknown places ts aid src tgt h

/-- Witness for the amended C9: the `ghost` source is unknown, and the
arc leaves the single transition untouched. -/
theorem claim_c9_unknown_arc_skipped_witness :
    (¬(([⟨"p1", 1⟩] : List Place).any (fun p => p.id == "ghost") = true ∨
       ([⟨"t1", [], []⟩] : List Transition).any (fun t => t.id == "ghost") = true)) ∧
    addArc [⟨"p1", 1⟩] [⟨"t1", [], []⟩] "a1" "ghost" "t1" = [⟨"t1", [], []⟩] :=
  ⟨by decide, claim_c9_unknown_arc_skipped [⟨"p1", 1⟩] [⟨"t1", [], []⟩] "a1" "ghost" "t1"
    (Or.inl (by decide))⟩

/-- C10: every produced marking (initial and successors) has one 0/1
entry per place; a place declaring any initial marking other than 1
(e.g. 2) contributes entry 0. -/
theorem claim_c10_marking_wellformed (net : PetriNet)
    (hnd : (net.places.map Place.id).Nodup) :
    net.get_initial_marking_tuple.length = net.places.length ∧
    (∀ x ∈ net.get_initial_marking_tuple, x = 0 ∨ x = 1) ∧
    (∀ (m : Marking) (t : Transition), (net.fire_transition m t).length = m.length) ∧
    (∀ (m : Marking) (t : Transition), (∀ x ∈ m, x = 0 ∨ x = 1) →
      ∀ x ∈ net.fire_transition m t, x = 0 ∨ x = 1) ∧
    (∀ p ∈ net.places, p.initial_marking ≠ 1 →
      net.get_initial_marking_tuple.getD (net.place_id_to_index p.id) 0 = 0) :=
  ⟨length_initial net, mem_initial net, length_fire net,
    fun m t hm => mem_fire net m t hm,
    fun _ hp hm => initial_getD_of_not_one net hnd hp hm⟩

/-- Witness for C10 at the net whose place `p1` declares marking 2: the
initial tuple has one entry per place and reads 0 at `p1`. -/
theorem claim_c10_marking_wellformed_witness :
    (oddNet.places.map Place.id).Nodup ∧
    (⟨"p1", 2⟩ : Place) ∈ oddNet.places ∧
    ((⟨"p1", 2⟩ : Place).initial_marking ≠ 1) ∧
    oddNet.get_initial_marking_tuple.getD
      (oddNet.place_id_to_index (⟨"p1", 2⟩ : Place).id) 0 = 0 ∧
    oddNet.get_initial_marking_tuple.length = oddNet.places.length :=
  ⟨by decide, by decide, by decide,
    (claim_c10_marking_wellformed oddNet (by decide)).2.2.2.2 ⟨"p1", 2⟩ (by decide) (by decide),
    (claim_c10_marking_wellformed oddNet (by decide)).1⟩
